import Mathlib

/-!
Verification of the declaration-resolution and completion engine of a
language server for the Zeek scripting language.

The development shallowly embeds the completion dispatch (src/complete.rs),
the external-declaration resolver with its load-closure fixed point
(src/lsp.rs) and the position conversions (src/lib.rs).  Parts of the
crate that are not in the sources (the query module with the declaration
extractor and resolver, the ast helpers, the keyword table and the fuzzy
matching crate) are modelled from the specification; every such definition
is marked in its doc comment.  Syntax trees come from a black-box parser,
so trees are modelled as an interface record whose lookup functions are
supplied per instance.
-/

set_option maxRecDepth 4096

namespace ZeekLsp

/-! ### Character-list string helpers

All string manipulation is done on the underlying character lists with
structural recursion so that every definition evaluates inside the kernel.
-/

/-- Whitespace test used by the trim helper (models str trim). -/
def isWS (c : Char) : Bool := c == ' ' || c == '\t' || c == '\n' || c == '\r'

/-- Trims whitespace from both ends of a character list (models str trim). -/
def trimChars (l : List Char) : List Char :=
  ((l.dropWhile isWS).reverse.dropWhile isWS).reverse

/-- String trim on the character-list representation. -/
def strTrim (s : String) : String := String.mk (trimChars s.data)

/-- Removes every dollar and question-mark character
(models str replace with the characters dollar and question mark). -/
def removeDollarQ (l : List Char) : List Char :=
  l.filter (fun c => !(c == '$' || c == '?'))

/-- Length of the node text after trimming and dollar stripping; the
search loop in complete.rs keeps stepping while this is zero. -/
def strippedLen (s : String) : Nat := (removeDollarQ (trimChars s.data)).length

/-- Splits a character list at newline characters; always returns at least
one piece. -/
def splitNl : List Char → List (List Char)
  | [] => [[]]
  | '\n' :: rest => [] :: splitNl rest
  | c :: rest =>
    match splitNl rest with
    | seg :: segs => (c :: seg) :: segs
    | [] => [[c]]

/-- Drops one trailing carriage return (line endings in Rust lines). -/
def stripCR (l : List Char) : List Char :=
  match l.reverse with
  | '\r' :: rest => rest.reverse
  | _ => l

/-- Rust str lines: split at newlines, strip a carriage return before each
newline, and drop a final empty piece produced by a trailing newline. -/
def rustLines (s : String) : List String :=
  match splitNl s.data with
  | [] => []
  | ps =>
    let main := (ps.dropLast.map (fun l => String.mk (stripCR l)))
    match ps.getLast? with
    | some last => if last.isEmpty then main else main ++ [String.mk last]
    | none => main

/-- Tests whether a string ends in a dollar character. -/
def endsWithDollar (s : String) : Bool :=
  match s.data.reverse with
  | '$' :: _ => true
  | _ => false

/-- ASCII lower casing of one character (models char to_lowercase for the
ASCII range that identifiers use). -/
def lowerChar (c : Char) : Char :=
  if 'A' ≤ c && c ≤ 'Z' then Char.ofNat (c.toNat + 32) else c

/-- String lower casing. -/
def toLowerStr (s : String) : String := String.mk (s.data.map lowerChar)

/-- Strips a leading character-list pattern, returning the remainder when
the pattern is a prefix of the list (models str strip of a leading
pattern). -/
def stripPre : List Char → List Char → Option (List Char)
  | [], ys => some ys
  | _ :: _, [] => none
  | x :: xs, y :: ys => if x == y then stripPre xs ys else none

/-- Keeps the text after the last occurrence of a double colon; the whole
string when no double colon occurs (models split on a double colon
followed by last). -/
def lastSegAux : List Char → List Char → List Char
  | acc, [] => acc.reverse
  | _, ':' :: ':' :: rest => lastSegAux [] rest
  | acc, c :: rest => lastSegAux (c :: acc) rest

/-- Last double-colon separated segment of a string. -/
def lastSegment (s : String) : String := String.mk (lastSegAux [] s.data)

/-- Lexicographic comparison of character lists by code point. -/
def ltChars : List Char → List Char → Bool
  | [], [] => false
  | [], _ :: _ => true
  | _ :: _, [] => false
  | a :: as, b :: bs => if a == b then ltChars as bs else decide (a.toNat < b.toNat)

/-- Lexicographic string comparison used by the ordered set model. -/
def ltStr (a b : String) : Bool := ltChars a.data b.data

/-- Modelled from the spec: the fuzzy similarity score of the external
matching crate is an implementation choice constrained to score disjoint
character sets as exactly zero and identical strings maximally; the model
counts the characters of the first string that occur in the second. -/
def fuzzy_compare (a b : String) : Nat :=
  a.data.countP (fun c => b.data.contains c)

/-- First-occurrence deduplication with an accumulator of already seen
elements (models the itertools unique adaptor). -/
def uniqueAux [BEq α] : List α → List α → List α
  | _, [] => []
  | seen, x :: xs =>
    if seen.contains x then uniqueAux seen xs else x :: uniqueAux (x :: seen) xs

/-- First-occurrence deduplication (models the itertools unique adaptor). -/
def uniqueList [BEq α] (l : List α) : List α := uniqueAux [] l

/-! ### Positions and points (src/lib.rs) -/

/-- Transport position: zero-based line and character, u32 in the
transport; modelled as naturals with the u32 bound stated where needed. -/
structure Position where
  line : Nat
  character : Nat
deriving DecidableEq

/-- Parser point: zero-based row and column, usize in the parser. -/
structure Point where
  row : Nat
  column : Nat
deriving DecidableEq

/-- Source span; the stop field models the end field of the transport
range (end is a reserved word here). -/
structure Range where
  start : Position
  stop : Position
deriving DecidableEq

/-- lib.rs to_offset: usize to u32, failing above the u32 range. -/
def to_offset (x : Nat) : Option Nat := if x < 2 ^ 32 then some x else none

/-- lib.rs from_offset: u32 to usize, total on the 64-bit targets the
server builds for. -/
def from_offset (x : Nat) : Option Nat := some x

/-- lib.rs to_position: parser point to transport position. -/
def to_position (p : Point) : Option Position :=
  match to_offset p.row, to_offset p.column with
  | some r, some c => some ⟨r, c⟩
  | _, _ => none

/-- lib.rs to_point: transport position to parser point. -/
def to_point (p : Position) : Option Point :=
  match from_offset p.line, from_offset p.character with
  | some r, some c => some ⟨r, c⟩
  | _, _ => none

/-! ### Declarations (modelled from the spec, the query module is not in src/) -/

mutual
/-- Modelled from the spec: the central symbol record of the missing query
module, with local id, fully qualified id, kind, markdown documentation,
owning uri and the span of the name. -/
inductive Decl where
  | mk (id : String) (fqid : String) (kind : DeclKind) (documentation : String)
      (uri : String) (selectionRange : Range)
/-- Modelled from the spec: the tagged declaration-kind union; type, record
redefinition, enum and enum redefinition carry their field or member
declarations, callables carry a signature. -/
inductive DeclKind where
  | global
  | var
  | const
  | option
  | redef
  | type (fields : List Decl)
  | redefRecord (fields : List Decl)
  | enum (members : List Decl)
  | redefEnum (members : List Decl)
  | field
  | enumMember
  | funcDecl (sig : Signature)
  | funcDef (sig : Signature)
  | hookDecl (sig : Signature)
  | hookDef (sig : Signature)
  | eventDecl (sig : Signature)
  | eventDef (sig : Signature)
  | loopIndex (loopKind : String) (index : Nat)
/-- Modelled from the spec: a callable signature carrying the parameter
declarations. -/
inductive Signature where
  | mk (args : List Decl)
end

/-- Local name of a declaration. -/
def Decl.id : Decl → String
  | .mk i _ _ _ _ _ => i

/-- Fully qualified id of a declaration. -/
def Decl.fqid : Decl → String
  | .mk _ f _ _ _ _ => f

/-- Kind of a declaration. -/
def Decl.kind : Decl → DeclKind
  | .mk _ _ k _ _ _ => k

/-- Documentation of a declaration. -/
def Decl.documentation : Decl → String
  | .mk _ _ _ d _ _ => d

/-- Owning file of a declaration. -/
def Decl.uri : Decl → String
  | .mk _ _ _ _ u _ => u

/-- Span of the declared name. -/
def Decl.selectionRange : Decl → Range
  | .mk _ _ _ _ _ r => r

/-- Replaces the fully qualified id (models the record-update expression in
the scope walk of complete.rs). -/
def Decl.withFqid : Decl → String → Decl
  | .mk i _ k d u r, f => .mk i f k d u r

/-- Arguments of a signature. -/
def Signature.args : Signature → List Decl
  | .mk as => as

mutual
/-- Structural equality of declarations (models the derived equality that
the unique adaptor and the hash sets compare with). -/
def Decl.beq : Decl → Decl → Bool
  | .mk i f k d u r, .mk i' f' k' d' u' r' =>
    i == i' && f == f' && DeclKind.beq k k' && d == d' && u == u' && decide (r = r')
termination_by structural x => x
/-- Structural equality of declaration kinds. -/
def DeclKind.beq : DeclKind → DeclKind → Bool
  | .global, .global => true
  | .var, .var => true
  | .const, .const => true
  | .option, .option => true
  | .redef, .redef => true
  | .type fs, .type fs' => declsBeq fs fs'
  | .redefRecord fs, .redefRecord fs' => declsBeq fs fs'
  | .enum ms, .enum ms' => declsBeq ms ms'
  | .redefEnum ms, .redefEnum ms' => declsBeq ms ms'
  | .field, .field => true
  | .enumMember, .enumMember => true
  | .funcDecl s, .funcDecl s' => Signature.beq s s'
  | .funcDef s, .funcDef s' => Signature.beq s s'
  | .hookDecl s, .hookDecl s' => Signature.beq s s'
  | .hookDef s, .hookDef s' => Signature.beq s s'
  | .eventDecl s, .eventDecl s' => Signature.beq s s'
  | .eventDef s, .eventDef s' => Signature.beq s s'
  | .loopIndex lk i, .loopIndex lk' i' => lk == lk' && i == i'
  | _, _ => false
termination_by structural x => x
/-- Structural equality of signatures. -/
def Signature.beq : Signature → Signature → Bool
  | .mk as, .mk as' => declsBeq as as'
termination_by structural x => x
/-- Structural equality of declaration lists. -/
def declsBeq : List Decl → List Decl → Bool
  | [], [] => true
  | x :: xs, y :: ys => Decl.beq x y && declsBeq xs ys
  | _, _ => false
termination_by structural x => x
end

instance : BEq Decl := ⟨Decl.beq⟩

/-- Modelled from the spec: the redefinition test of the missing ast
module; redefinition declarations are the redef, record-redefinition and
enum-redefinition kinds. -/
def is_redef (d : Decl) : Bool :=
  match d.kind with
  | .redef => true
  | .redefRecord _ => true
  | .redefEnum _ => true
  | _ => false

/-! ### Completion items (the transport view of a candidate) -/

/-- Completion item kinds used by complete.rs. -/
inductive CompletionItemKind where
  | variableItem
  | propertyItem
  | constantItem
  | enumItem
  | classItem
  | functionItem
  | operatorItem
  | eventItem
  | fieldItem
  | enumMemberItem
  | keywordItem
  | fileItem
deriving DecidableEq

/-- Transport completion item: label, kind tag and optional markdown
documentation. -/
structure CompletionItem where
  label : String
  kind : Option CompletionItemKind
  documentation : Option String
deriving DecidableEq

deriving instance DecidableEq for Except

/-- complete.rs to_completion_item_kind. -/
def to_completion_item_kind (kind : DeclKind) : CompletionItemKind :=
  match kind with
  | .global => .variableItem
  | .var => .variableItem
  | .redef => .variableItem
  | .loopIndex _ _ => .variableItem
  | .option => .propertyItem
  | .const => .constantItem
  | .enum _ => .enumItem
  | .redefEnum _ => .enumItem
  | .type _ => .classItem
  | .redefRecord _ => .classItem
  | .funcDecl _ => .functionItem
  | .funcDef _ => .functionItem
  | .hookDecl _ => .operatorItem
  | .hookDef _ => .operatorItem
  | .eventDecl _ => .eventItem
  | .eventDef _ => .eventItem
  | .field => .fieldItem
  | .enumMember => .enumMemberItem

/-- complete.rs to_completion_item: the label is the fully qualified id and
the documentation is the markdown documentation of the declaration. -/
def to_completion_item (d : Decl) : CompletionItem :=
  { label := d.fqid
    kind := some (to_completion_item_kind d.kind)
    documentation := some d.documentation }

/-- Modelled from the spec: the reserved keyword table of the missing zeek
module. -/
def KEYWORDS : List String :=
  ["break", "const", "else", "event", "export", "for", "function",
   "global", "hook", "if", "local", "module", "print", "redef",
   "return", "schedule", "type", "when", "while"]

/-! ### Syntax trees and the query database (interfaces of collaborators)

The parser is a black box producing a concrete syntax tree; the tree is
modelled as a record of the lookup operations complete.rs performs on it.
The salsa query database is likewise modelled as a record of the queries
complete.rs issues; the queries themselves live in the missing query
module and are modelled from the spec.
-/

/-- Data of one syntax node: kind name, utf8 rendering of its span (none
on an encoding error) and its source range. -/
structure SyntaxNodeData where
  kind : String
  utf8 : Option String
  range : Range

/-- Modelled from the spec: the black-box parse tree, as the interface of
lookups used by complete.rs; nodes are addressed by an index. -/
structure Tree where
  nodeData : Nat → SyntaxNodeData
  parent : Nat → Option Nat
  namedChild : Nat → String → Option Nat
  descendantForPosition : Position → Option Nat
  namedDescendantForPointRange : Range → Option Nat
  declsOf : Nat → List Decl
  root : Nat

/-- Modelled from the spec: the query database as seen by complete.rs;
resolve, typ, possible_loads, decls, implicit_decls and
explicit_decls_recursive are queries of the missing query module. -/
structure DB where
  source : String → String
  parse : String → Option Tree
  resolve : String → Nat → Option Decl
  typ : Decl → Option Decl
  possible_loads : String → List String
  decls : String → List Decl
  implicit_decls : List Decl
  explicit_decls_recursive : String → List Decl

/-! ### The completion dispatch (src/complete.rs) -/

/-- The search loop of complete.rs lines 40 to 65: while the node under
the cursor renders no interesting text (empty after trimming and dollar
stripping, or an encoding error), step to the node before the start of
the current node on the cursor line; stop at column zero or when the
lookup fails.  The Rust loop has no explicit bound; the fuel bounds the
number of steps and is instantiated large enough in every use. -/
def findTextNode (t : Tree) (pos : Position) : Nat → Nat → Nat
  | 0, n => n
  | fuel + 1, n =>
    let nd := t.nodeData n
    let empty :=
      match nd.utf8 with
      | none => true
      | some s => strippedLen s == 0
    if empty then
      let start := nd.range.start.character
      if start == 0 then n
      else
        match t.descendantForPosition ⟨pos.line, start - 1⟩ with
        | some n' => findTextNode t pos fuel n'
        | none => n
    else n

/-- Member-access trigger of complete.rs lines 76 to 90: the trigger
character is a dollar, or the node at the end position of the cursor node
renders text ending in a dollar, or the parent of the cursor node is a
field-access or field-check construct. -/
def memberCond (tree : Tree) (node : Nat) (trigger : Option String) : Bool :=
  (trigger == some "$")
  || (match tree.descendantForPosition
        ⟨(tree.nodeData node).range.stop.line, (tree.nodeData node).range.stop.character⟩ with
      | some nn =>
        (match (tree.nodeData nn).utf8 with
         | some t => endsWithDollar t
         | none => false)
      | none => false)
  || (match tree.parent node with
      | some p =>
        (tree.nodeData p).kind == "field_access" || (tree.nodeData p).kind == "field_check"
      | none => false)

/-- Stem of a member access: the expr child of the parent when the parent
is a field access or field check (complete.rs lines 94 to 97). -/
def stemOf (tree : Tree) (node : Nat) : Option Nat :=
  match tree.parent node with
  | some p =>
    if (tree.nodeData p).kind == "field_access" || (tree.nodeData p).kind == "field_check"
    then tree.namedChild p "expr"
    else none
  | none => none

/-- Partial field text after the dollar: the cursor node text, present
exactly when a stem exists (complete.rs line 98). -/
def preselectionOf (tree : Tree) (node : Nat) : Option String :=
  match stemOf tree node with
  | some _ => (tree.nodeData node).utf8
  | none => none

/-- Pre-filter of the member-access branch (complete.rs lines 112 to 115):
with partial text after the dollar a field is kept when its id starts
with that text, otherwise every field is kept. -/
def keepField (preselection : Option String) (d : Decl) : Bool :=
  match preselection with
  | some pre => List.isPrefixOf pre.data d.id.data
  | none => true

/-- Field candidates of the member-access branch: fields filtered by the
partial text as a prefix of the field id, rendered with the label cut to
the last double-colon segment (complete.rs lines 109 to 125). -/
def fieldItems (fields : List Decl) (preselection : Option String) : List CompletionItem :=
  (fields.filter (keepField preselection)).map (fun d =>
    let item := to_completion_item d
    { item with label := lastSegment item.label })

/-- Member-access branch of complete.rs lines 76 to 129; none when the
branch does not return and dispatch falls through. -/
def memberAccess (db : DB) (uri : String) (tree : Tree) (node : Nat)
    (trigger : Option String) : Option (List CompletionItem) :=
  if memberCond tree node trigger then
    let rnode := (stemOf tree node).getD node
    match db.resolve uri rnode with
    | some r =>
      match db.typ r with
      | some decl =>
        match decl.kind with
        | .type fields => some (fieldItems fields (preselectionOf tree node))
        | _ => none
      | none => none
    | none => none
  else none

/-- Word characters of the leading-keyword pattern. -/
def isWordChar (c : Char) : Bool := c.isAlphanum || c == '_'

/-- Leading-word pattern of complete.rs line 152: a line matches when it
starts with one or more word characters followed by at least one
whitespace character; the captured word is returned. -/
def leadingKeyword (line : String) : Option String :=
  let w := line.data.takeWhile isWordChar
  let rest := line.data.dropWhile isWordChar
  if w.isEmpty then none
  else
    match rest with
    | c :: _ => if isWS c then some (String.mk w) else none
    | [] => none

/-- Joins strings with a separator (models the itertools join). -/
def intercalateStr (sep : String) : List String → String
  | [] => ""
  | [x] => x
  | x :: xs => x ++ sep ++ intercalateStr sep xs

/-- Argument text of a callable signature: each parameter declaration is
re-resolved in its own file by span and rendered; unresolvable parameters
are dropped (complete.rs lines 176 to 190). -/
def renderSignature (db : DB) (s : Signature) : String :=
  intercalateStr ", " (s.args.filterMap (fun a =>
    match db.parse a.uri with
    | none => none
    | some t =>
      match t.namedDescendantForPointRange a.selectionRange with
      | none => none
      | some an => (t.nodeData an).utf8))

/-- Kind filter of the callable branch (complete.rs lines 162 to 167). -/
def matchesCallableKind (kw : String) (d : Decl) : Bool :=
  match d.kind with
  | .eventDecl _ => kw == "event"
  | .funcDecl _ => kw == "function"
  | .hookDecl _ => kw == "hook"
  | _ => false

/-- Candidates of the callable branch for a given leading word: local,
implicit and transitively loaded declarations filtered by matching kind,
deduplicated, and rendered with a parameter-list stub appended
(complete.rs lines 156 to 200). -/
def callableItemsFor (db : DB) (uri : String) (kw : String) : List CompletionItem :=
  (uniqueList ((db.decls uri ++ db.implicit_decls ++ db.explicit_decls_recursive uri).filter
      (matchesCallableKind kw))).filterMap (fun d =>
    let item := to_completion_item d
    match d.kind with
    | .eventDecl s | .funcDecl s | .hookDecl s =>
      some { item with label := item.label ++ "(" ++ renderSignature db s ++ ") \x7b\x7d" }
    | _ => none)

/-- Callable branch of complete.rs lines 146 to 203: taken when the cursor
node kind is id and the cursor line matches the leading-word pattern. -/
def callableBranch (db : DB) (uri source : String) (tree : Tree) (node : Nat) :
    Option (List CompletionItem) :=
  if (tree.nodeData node).kind == "id" then
    match ((rustLines source).get? (tree.nodeData node).range.start.line).bind leadingKeyword with
    | some kw => some (callableItemsFor db uri kw)
    | none => none
  else none

/-- Insertion into the ordered declaration set of the scope walk.  The
Rust code inserts into a BTreeSet of declarations; the ordering of the
missing query module is modelled from the spec as keyed on the rewritten
fully qualified id, and insertion keeps an existing element with an equal
key. -/
def btreeInsert (d : Decl) : List Decl → List Decl
  | [] => [d]
  | x :: xs =>
    if d.fqid == x.fqid then x :: xs
    else if ltStr d.fqid x.fqid then d :: x :: xs
    else x :: btreeInsert d xs

/-- Strips a leading module qualifier from a fully qualified id
(complete.rs lines 218 to 225). -/
def stripModuleId (mid fqid : String) : String :=
  match stripPre (mid.data ++ [':', ':']) fqid.data with
  | some rest => String.mk rest
  | none => fqid

/-- Fqid rewriting applied to every declaration inserted by the scope
walk. -/
def stripDecl (currentModule : Option String) (d : Decl) : Decl :=
  match currentModule with
  | some mid => d.withFqid (stripModuleId mid d.fqid)
  | none => d

/-- Scope walk of complete.rs lines 214 to 233: from the cursor node to
the root, insert the direct declarations of every node, rewritten, into
the ordered set; the fuel bounds the ancestor chain and is instantiated
large enough in every use. -/
def scopeWalk (t : Tree) (strip : Decl → Decl) : Nat → Nat → List Decl → List Decl
  | 0, _, items => items
  | fuel + 1, n, items =>
    let items := (t.declsOf n).foldl (fun acc d => btreeInsert (strip d) acc) items
    match t.parent n with
    | some p => scopeWalk t strip fuel p items
    | none => items

/-- Module name of the completed file (complete.rs lines 209 to 212). -/
def currentModuleOf (tree : Tree) : Option String :=
  match tree.namedChild tree.root "module_decl" with
  | some m =>
    match tree.namedChild m "id" with
    | some i => (tree.nodeData i).utf8
    | none => none
  | none => none

/-- Fuzzy admission test for external declarations in the general branch
(complete.rs lines 244 to 250): with completion text present the
lower-cased fuzzy score against the lower-cased fully qualified id must
be positive. -/
def fuzzyPass (textAtCompletion : Option String) (fqid : String) : Bool :=
  match textAtCompletion with
  | some text => decide (0 < fuzzy_compare (toLowerStr text) (toLowerStr fqid))
  | none => true

/-- External declarations admitted by the general branch: loaded then
implicit declarations, without redefinitions, and when completion text is
present only those with a positive fuzzy score against it
(complete.rs lines 238 to 251). -/
def otherDecls (db : DB) (uri : String) (textAtCompletion : Option String) : List Decl :=
  (db.explicit_decls_recursive uri ++ db.implicit_decls).filter (fun i =>
    !is_redef i && fuzzyPass textAtCompletion i.fqid)

/-- Keyword admission test of the general branch (complete.rs lines 261
to 269): a keyword is included when no completion text is present, the
text is empty, or the fuzzy score is positive. -/
def keywordPass (textAtCompletion : Option String) (kw : String) : Bool :=
  match textAtCompletion with
  | some text =>
    text.data.isEmpty || decide (0 < fuzzy_compare (toLowerStr text) (toLowerStr kw))
  | none => true

/-- Keyword candidates of the general branch (complete.rs lines 260 to
280). -/
def keywordItems (textAtCompletion : Option String) : List CompletionItem :=
  KEYWORDS.filterMap (fun kw =>
    if keywordPass textAtCompletion kw then
      some { label := kw, kind := some .keywordItem, documentation := none }
    else none)

/-- General identifier completion of complete.rs lines 205 to 282: the
scope-walk set chained with the external declarations, deduplicated,
mapped to items, followed by the filtered keywords. -/
def generalCompletion (db : DB) (uri : String) (tree : Tree) (node : Nat)
    (textAtCompletion : Option String) (fuel : Nat) : List CompletionItem :=
  let items := scopeWalk tree (stripDecl (currentModuleOf tree)) fuel node []
  (uniqueList (items ++ otherDecls db uri textAtCompletion)).map to_completion_item
    ++ keywordItems textAtCompletion

/-- The completion dispatch of complete.rs: parse, locate the cursor node,
search for a node with text, then try member access, file load, callable
signature and the general fallback in order.  An encoding error on the
resolved node text propagates as an error; a missing tree or node yields
an absent response. -/
def complete (db : DB) (uri : String) (position : Position) (trigger : Option String)
    (fuel : Nat) : Except Unit (Option (List CompletionItem)) :=
  let source := db.source uri
  match db.parse uri with
  | none => .ok none
  | some tree =>
    match tree.descendantForPosition position with
    | none => .ok none
    | some n0 =>
      let node := findTextNode tree position fuel n0
      match (tree.nodeData node).utf8 with
      | none => .error ()
      | some ntext =>
        let textAtCompletion := ((rustLines ntext).head?).map strTrim
        match memberAccess db uri tree node trigger with
        | some items => .ok (some items)
        | none =>
          if (tree.nodeData node).kind == "file" then
            .ok (some ((db.possible_loads uri).map (fun load =>
              { label := load, kind := some .fileItem, documentation := none })))
          else
            match callableBranch db uri source tree node with
            | some items => .ok (some items)
            | none => .ok (some (generalCompletion db uri tree node textAtCompletion fuel))

/-! ### External declaration resolution (src/lsp.rs)

The lsp module predates the complete module and carries its own,
payload-free declaration kind; it is embedded separately with its own
types.  The parse, module and load queries live in the missing parse and
query modules and are modelled as interface fields.
-/

namespace Lsp

/-- File record of lsp.rs: uri identity, source text and the load pattern
under which other files may reference it. -/
structure LFile where
  id : String
  source : String
  load : String
deriving DecidableEq

/-- Payload-free declaration kinds of lsp.rs. -/
inductive LDeclKind where
  | global
  | var
  | const
  | option
  | redef
  | redefEnum
  | redefRecord
  | type
  | func
  | hook
  | event
deriving DecidableEq

/-- Declaration record as consumed by lsp.rs external_decls: the id is
rewritten with a module qualifier, kind and documentation are carried
through. -/
structure LDecl where
  id : String
  kind : LDeclKind
  documentation : String
deriving DecidableEq

/-- Module aggregate of a file: optional declared name, owned declarations
and load targets (modelled from the spec, the query module is not in
src/). -/
structure Module where
  id : Option String
  decls : List LDecl
  loads : List String
deriving DecidableEq

/-- Modelled from the spec: the black-box parse tree of lsp.rs, abstracted
to the load targets the loads query extracts from its root node. -/
structure LTree where
  loads : List String
deriving DecidableEq

/-- Modelled from the spec: the database as seen by external_decls; files
is the known file set, parse and module are queries of the missing parse
and query modules. -/
structure LState where
  files : List LFile
  parse : LFile → Option LTree
  module : LFile → Option Module

/-- Resolution of one load target: the first known file whose load pattern
equals the target (lsp.rs line 404). -/
def resolveLoad (st : LState) (load : String) : Option LFile :=
  st.files.find? (fun f => f.load == load)

/-- One file of a fixed-point pass (lsp.rs lines 397 to 415): resolve
every load target of its module and collect targets that are neither in
the current set nor already collected. -/
def passFile (st : LState) (files : List LFile) (acc : List LFile) (f : LFile) :
    List LFile :=
  match st.module f with
  | none => acc
  | some m =>
    m.loads.foldl (fun acc load =>
      match resolveLoad st load with
      | some f' => if files.contains f' || acc.contains f' then acc else acc ++ [f']
      | none => acc) acc

/-- One pass of the fixed-point loop: the set of newly discovered files
(lsp.rs lines 395 to 415). -/
def onePass (st : LState) (files : List LFile) : List LFile :=
  files.foldl (passFile st files) []

/-- Fixed-point expansion of lsp.rs lines 394 to 424: repeat passes until
a pass adds no new file.  The Rust loop is unbounded; the fuel bounds the
number of passes, and the caller passes one more than the number of known
files, which the termination theorem proves sufficient. -/
def expand (st : LState) : Nat → List LFile → Option (List LFile)
  | 0, _ => none
  | fuel + 1, files =>
    let new := onePass st files
    if new.isEmpty then some files
    else expand st fuel (files ++ new)

/-- Initial working set of external_decls (lsp.rs lines 376 to 391): the
known files whose load pattern is among the load targets of the root
file, collected into a set. -/
def initialFiles (st : LState) (tree : LTree) : List LFile :=
  (st.files.filter (fun f => (tree.loads.dedup).contains f.load)).dedup

/-- Splits a character list at a separator character; always returns at
least one piece. -/
def splitOnChar (c : Char) : List Char → List (List Char)
  | [] => [[]]
  | x :: rest =>
    if x == c then [] :: splitOnChar c rest
    else
      match splitOnChar c rest with
      | seg :: segs => (x :: seg) :: segs
      | [] => [[x]]

/-- Modelled from the spec: the filename-derived default module name of
the missing query module, the file stem of the uri. -/
def default_module_name (uri : String) : Option String :=
  let base := (splitOnChar '/' uri.data).getLastD []
  let stem := (splitOnChar '.' base).headD []
  if stem.isEmpty then none else some (String.mk stem)

/-- Module qualification of lsp.rs lines 426 to 448: for every module of
the closure, qualify its declarations with the declared module name or,
when absent, with the filename-derived default of the uri of the file the
query was asked about (the binding named file in scope there is the query
argument, not the loaded file). -/
def qualifyModules (st : LState) (file : LFile) (files : List LFile) : List LDecl :=
  ((files.filterMap st.module).filterMap (fun m =>
    (match m.id with
     | some id => some id
     | none => default_module_name file.id).map
      (fun module_id => m.decls.map (fun (d : LDecl) =>
        { d with id := module_id ++ "::" ++ d.id })))).flatten

/-- lsp.rs external_decls: declarations of implicitly or explicitly loaded
modules, module-qualified; the empty sequence when the file does not
parse.  The fuel of the expansion is one more than the number of known
files; the fallback for exhausted fuel is unreachable by the termination
theorem. -/
def external_decls (st : LState) (file : LFile) : Except Unit (List LDecl) :=
  match st.parse file with
  | none => .ok []
  | some tree =>
    match expand st (st.files.length + 1) (initialFiles st tree) with
    | none => .ok []
    | some files => .ok (qualifyModules st file files)

/-- Reachability through resolvable load targets: the closure of the
initial working set under one-step load resolution. -/
inductive Reach (st : LState) (start : List LFile) : LFile → Prop where
  | base {f} : f ∈ start → Reach st start f
  | step {f m load g} : Reach st start f → st.module f = some m → load ∈ m.loads →
      resolveLoad st load = some g → Reach st start g

end Lsp

/-! ### Shared helpers for the claim statements -/

/-- Tests whether a completion response is a present candidate list
containing a given item. -/
def resultContains (r : Except Unit (Option (List CompletionItem)))
    (item : CompletionItem) : Bool :=
  match r with
  | .ok (some items) => items.contains item
  | _ => false

/-- A database whose parser never produces a tree. -/
def noParseDB : DB where
  source := fun _ => ""
  parse := fun _ => none
  resolve := fun _ _ => none
  typ := fun _ => none
  possible_loads := fun _ => []
  decls := fun _ => []
  implicit_decls := []
  explicit_decls_recursive := fun _ => []

/-- A state whose parser never produces a tree. -/
def noParseLState : Lsp.LState where
  files := []
  parse := fun _ => none
  module := fun _ => none

/-! ### Claim C7: unparseable input degrades -/

/-- C7: whenever parsing a file yields no syntax tree, completion returns
an absent result and external declaration resolution returns the empty
sequence, and neither propagates an error. -/
theorem c7_unparseable_degrades :
    (∀ (db : DB) (uri : String) (pos : Position) (trigger : Option String) (fuel : Nat),
      db.parse uri = none → complete db uri pos trigger fuel = .ok none) ∧
    (∀ (st : Lsp.LState) (file : Lsp.LFile),
      st.parse file = none → Lsp.external_decls st file = .ok []) := by
  constructor
  · intro db uri pos trigger fuel h
    simp [complete, h]
  · intro st file h
    simp [Lsp.external_decls, h]

/-- Witness for C7 at a concrete database and state without a parse
tree. -/
theorem c7_unparseable_degrades_witness :
    complete noParseDB "/x.zeek" ⟨0, 0⟩ none 5 = .ok none ∧
    Lsp.external_decls noParseLState ⟨"/x.zeek", "", "x"⟩ = .ok [] :=
  ⟨c7_unparseable_degrades.1 noParseDB "/x.zeek" ⟨0, 0⟩ none 5 rfl,
   c7_unparseable_degrades.2 noParseLState ⟨"/x.zeek", "", "x"⟩ rfl⟩

/-! ### Claim C8: position and point conversions round-trip -/

/-- C8: the conversions between transport positions and parser points form
a pure bidirectional mapping that round-trips exactly; every position
(whose coordinates satisfy the u32 invariant of the transport type)
converts to a point and back unchanged, and every point whose row and
column fit the transport integer width converts to a position and back
unchanged. -/
theorem c8_position_point_roundtrip :
    (∀ p : Position, p.line < 2 ^ 32 → p.character < 2 ^ 32 →
      (to_point p).bind to_position = some p) ∧
    (∀ q : Point, q.row < 2 ^ 32 → q.column < 2 ^ 32 →
      (to_position q).bind to_point = some q) := by
  constructor
  · intro p h1 h2
    have e1 : to_offset p.line = some p.line := by unfold to_offset; rw [if_pos h1]
    have e2 : to_offset p.character = some p.character := by unfold to_offset; rw [if_pos h2]
    simp [to_point, from_offset, to_position, e1, e2]
  · intro q h1 h2
    have e1 : to_offset q.row = some q.row := by unfold to_offset; rw [if_pos h1]
    have e2 : to_offset q.column = some q.column := by unfold to_offset; rw [if_pos h2]
    simp [to_position, to_point, from_offset, e1, e2]

/-- Witness for C8 at concrete coordinates. -/
theorem c8_position_point_roundtrip_witness :
    (to_point ⟨3, 7⟩).bind to_position = some ⟨3, 7⟩ ∧
    (to_position ⟨5, 9⟩).bind to_point = some ⟨5, 9⟩ :=
  ⟨c8_position_point_roundtrip.1 ⟨3, 7⟩ (by decide) (by decide),
   c8_position_point_roundtrip.2 ⟨5, 9⟩ (by decide) (by decide)⟩

/-! ### Claim C9: completion is deterministic -/

/-- C9: completion is deterministic with respect to its inputs; running
the dispatch twice on equal state, uri, position and trigger yields equal
candidate sets. -/
theorem c9_complete_deterministic :
    ∀ (db db' : DB) (uri uri' : String) (pos pos' : Position)
      (trigger trigger' : Option String) (fuel fuel' : Nat),
      db = db' → uri = uri' → pos = pos' → trigger = trigger' → fuel = fuel' →
      complete db uri pos trigger fuel = complete db' uri' pos' trigger' fuel' := by
  intro db db' uri uri' pos pos' t t' f f' h1 h2 h3 h4 h5
  subst h1; subst h2; subst h3; subst h4; subst h5; rfl

/-- Witness for C9 at a concrete input. -/
theorem c9_complete_deterministic_witness :
    complete noParseDB "/x.zeek" ⟨1, 2⟩ none 3 = complete noParseDB "/x.zeek" ⟨1, 2⟩ none 3 :=
  c9_complete_deterministic noParseDB noParseDB "/x.zeek" "/x.zeek" ⟨1, 2⟩ ⟨1, 2⟩
    none none 3 3 rfl rfl rfl rfl rfl

/-! ### Claim C2: the load-closure fixed point terminates -/

/-- Preservation of a predicate through a left fold. -/
theorem foldl_invariant {α β : Type} {P : α → Prop} (f : α → β → α)
    (h : ∀ a b, P a → P (f a b)) :
    ∀ (l : List β) (a : α), P a → P (l.foldl f a) := by
  intro l
  induction l with
  | nil => intro a ha; exact ha
  | cons x xs ih => intro a ha; exact ih _ (h a x ha)

namespace Lsp

/-- One-step load successor: some load target of the module of f resolves
to g. -/
def OneStep (st : LState) (f g : LFile) : Prop :=
  ∃ m, st.module f = some m ∧ ∃ load ∈ m.loads, resolveLoad st load = some g

/-- Membership in the inner fold of one pass over the load targets of one
module. -/
theorem foldLoads_mem (st : LState) (files : List LFile) :
    ∀ (loads : List String) (acc : List LFile) (x : LFile),
      (x ∈ loads.foldl (fun acc load =>
        match resolveLoad st load with
        | some f' => if files.contains f' || acc.contains f' then acc else acc ++ [f']
        | none => acc) acc) ↔
      x ∈ acc ∨ (x ∉ files ∧ ∃ load ∈ loads, resolveLoad st load = some x) := by
  intro loads
  induction loads with
  | nil => simp
  | cons l ls ih =>
    intro acc x
    simp only [List.foldl_cons]
    rcases hr : resolveLoad st l with _ | f'
    · rw [ih]
      simp [List.exists_mem_cons_iff, hr]
    · by_cases hf : files.contains f' = true
      · have hfm : f' ∈ files := List.elem_iff.mp hf
        simp only [hr, hf, Bool.true_or, if_true]
        rw [ih]
        constructor
        · rintro (h | ⟨hnf, hex⟩)
          · exact .inl h
          · exact .inr ⟨hnf, by simp [List.exists_mem_cons_iff]; right; exact hex⟩
        · rintro (h | ⟨hnf, hex⟩)
          · exact .inl h
          · rcases (List.exists_mem_cons_iff _ _ _).mp hex with h1 | h1
            · rw [hr] at h1
              cases h1
              exact absurd hfm hnf
            · exact .inr ⟨hnf, h1⟩
      · by_cases ha : acc.contains f' = true
        · have ham : f' ∈ acc := List.elem_iff.mp ha
          simp only [hr, hf, ha, Bool.false_or, if_true]
          rw [ih]
          constructor
          · rintro (h | ⟨hnf, hex⟩)
            · exact .inl h
            · exact .inr ⟨hnf, by simp [List.exists_mem_cons_iff]; right; exact hex⟩
          · rintro (h | ⟨hnf, hex⟩)
            · exact .inl h
            · rcases (List.exists_mem_cons_iff _ _ _).mp hex with h1 | h1
              · rw [hr] at h1
                cases h1
                exact .inl ham
              · exact .inr ⟨hnf, h1⟩
        · have hfn : f' ∉ files := fun hm => hf (List.elem_iff.mpr hm)
          simp only [hr, hf, ha, Bool.false_or, if_false]
          rw [ih]
          constructor
          · rintro (h | ⟨hnf, hex⟩)
            · rcases List.mem_append.mp h with h1 | h1
              · exact .inl h1
              · rcases List.mem_singleton.mp h1 with rfl
                exact .inr ⟨hfn, by simp [List.exists_mem_cons_iff, hr]⟩
            · exact .inr ⟨hnf, by simp [List.exists_mem_cons_iff]; right; exact hex⟩
          · rintro (h | ⟨hnf, hex⟩)
            · exact .inl (List.mem_append.mpr (.inl h))
            · rcases (List.exists_mem_cons_iff _ _ _).mp hex with h1 | h1
              · rw [hr] at h1
                cases h1
                exact .inl (List.mem_append.mpr (.inr (List.mem_singleton.mpr rfl)))
              · exact .inr ⟨hnf, h1⟩

/-- Membership in the contribution of one file to a pass. -/
theorem passFile_mem (st : LState) (files : List LFile) (acc : List LFile) (f x : LFile) :
    x ∈ passFile st files acc f ↔
      x ∈ acc ∨ (x ∉ files ∧ OneStep st f x) := by
  unfold passFile OneStep
  rcases hm : st.module f with _ | m
  · simp [hm]
  · rw [foldLoads_mem st files m.loads acc x]
    simp [hm]

/-- Membership in one pass of the fixed point: exactly the one-step load
successors of the current set that are not yet in it. -/
theorem onePass_mem (st : LState) (files : List LFile) (x : LFile) :
    x ∈ onePass st files ↔ x ∉ files ∧ ∃ f ∈ files, OneStep st f x := by
  unfold onePass
  have main : ∀ (fs acc : List LFile),
      x ∈ fs.foldl (passFile st files) acc ↔
        x ∈ acc ∨ (x ∉ files ∧ ∃ f ∈ fs, OneStep st f x) := by
    intro fs
    induction fs with
    | nil => simp
    | cons g gs ih =>
      intro acc
      simp only [List.foldl_cons]
      rw [ih, passFile_mem]
      constructor
      · rintro ((h | ⟨hnf, hstep⟩) | ⟨hnf, hex⟩)
        · exact .inl h
        · exact .inr ⟨hnf, by simp [List.exists_mem_cons_iff]; exact .inl hstep⟩
        · exact .inr ⟨hnf, by
            simp only [List.exists_mem_cons_iff]
            exact .inr hex⟩
      · rintro (h | ⟨hnf, hex⟩)
        · exact .inl (.inl h)
        · rcases (List.exists_mem_cons_iff _ _ _).mp hex with h1 | h1
          · exact .inl (.inr ⟨hnf, h1⟩)
          · exact .inr ⟨hnf, h1⟩
  rw [main files []]
  simp

/-- One pass preserves freedom from duplicates. -/
theorem passFile_nodup (st : LState) (files acc : List LFile) (f : LFile)
    (h : acc.Nodup) : (passFile st files acc f).Nodup := by
  unfold passFile
  rcases st.module f with _ | m
  · exact h
  · refine foldl_invariant _ ?_ m.loads acc h
    intro a load ha
    rcases resolveLoad st load with _ | f'
    · exact ha
    · show (if (files.contains f' || a.contains f') = true then a else a ++ [f']).Nodup
      by_cases hc : (files.contains f' || a.contains f') = true
      · rw [if_pos hc]; exact ha
      · rw [if_neg hc]
        have hfn : f' ∉ a := by
          intro hm
          exact hc (by rw [Bool.or_eq_true]; exact .inr (List.elem_iff.mpr hm))
        refine List.nodup_append.mpr ⟨ha, List.nodup_singleton f', ?_⟩
        intro x hx hx'
        rcases List.mem_singleton.mp hx' with rfl
        exact hfn hx

/-- The set of newly discovered files of a pass has no duplicates. -/
theorem onePass_nodup (st : LState) (files : List LFile) : (onePass st files).Nodup := by
  unfold onePass
  exact foldl_invariant _ (fun a f ha => passFile_nodup st files a f ha) files []
    List.nodup_nil

/-- Newly discovered files are known files. -/
theorem onePass_subset (st : LState) (files : List LFile) :
    ∀ x ∈ onePass st files, x ∈ st.files := by
  intro x hx
  rcases (onePass_mem st files x).mp hx with ⟨_, f, _, m, _, load, _, hres⟩
  exact List.mem_of_find?_eq_some hres

/-- Main induction for the fixed point: with fuel exceeding the number of
missing files the expansion reaches the fixed point and returns exactly
the closure of the initial set under resolvable loads. -/
theorem expand_reach (st : LState) (files0 : List LFile) :
    ∀ (fuel : Nat) (files : List LFile),
      files.Nodup → files ⊆ st.files →
      (∀ x ∈ files, Reach st files0 x) → files0 ⊆ files →
      st.files.length < fuel + files.length →
      ∃ r, expand st fuel files = some r ∧ r.Nodup ∧
        (∀ x, x ∈ r ↔ Reach st files0 x) := by
  intro fuel
  induction fuel with
  | zero =>
    intro files h1 h2 _ _ h5
    have hle : files.length ≤ st.files.length :=
      (List.subperm_of_subset h1 h2).length_le
    omega
  | succ fuel ih =>
    intro files h1 h2 h3 h4 h5
    by_cases hnew : (onePass st files).isEmpty = true
    · refine ⟨files, ?_, h1, ?_⟩
      · unfold expand
        rw [if_pos hnew]
      · intro x
        constructor
        · intro hx
          exact h3 x hx
        · intro hr
          induction hr with
          | base h => exact h4 h
          | @step f m load g _ hm hl hres ihr =>
            by_cases hg : g ∈ files
            · exact hg
            · exfalso
              have : g ∈ onePass st files :=
                (onePass_mem st files g).mpr ⟨hg, f, ihr, m, hm, load, hl, hres⟩
              rw [List.isEmpty_iff] at hnew
              rw [hnew] at this
              exact absurd this (List.not_mem_nil g)
    · have hne : onePass st files ≠ [] := by
        intro h
        exact hnew (by rw [h]; rfl)
      have hlen : 1 ≤ (onePass st files).length := by
        rcases h : onePass st files with _ | ⟨a, l⟩
        · exact absurd h hne
        · simp
      have hdisj : ∀ x ∈ onePass st files, x ∉ files := by
        intro x hx
        exact ((onePass_mem st files x).mp hx).1
      have h1' : (files ++ onePass st files).Nodup := by
        refine List.nodup_append.mpr ⟨h1, onePass_nodup st files, ?_⟩
        intro x hx hx'
        exact hdisj x hx' hx
      have h2' : (files ++ onePass st files) ⊆ st.files := by
        intro x hx
        rcases List.mem_append.mp hx with h | h
        · exact h2 h
        · exact onePass_subset st files x h
      have h3' : ∀ x ∈ files ++ onePass st files, Reach st files0 x := by
        intro x hx
        rcases List.mem_append.mp hx with h | h
        · exact h3 x h
        · rcases (onePass_mem st files x).mp h with ⟨_, f, hf, m, hm, load, hl, hres⟩
          exact Reach.step (h3 f hf) hm hl hres
      have h4' : files0 ⊆ files ++ onePass st files := by
        intro x hx
        exact List.mem_append.mpr (.inl (h4 hx))
      have h5' : st.files.length < fuel + (files ++ onePass st files).length := by
        rw [List.length_append]
        omega
      rcases ih (files ++ onePass st files) h1' h2' h3' h4' h5' with ⟨r, hr, hnd, hiff⟩
      refine ⟨r, ?_, hnd, hiff⟩
      unfold expand
      rw [if_neg hnew]
      exact hr

end Lsp

/-- C2: the load-closure fixed-point expansion terminates for every finite
set of known files — the fuel one greater than the number of known files
that external_decls passes always suffices, including for mutually
loading files — the result is exactly the transitive closure of
resolvable load targets of the initial working set, the loop stops
exactly when a pass adds no new file, and an already-visited file is
never added to the working set again by a pass. -/
theorem c2_load_closure_terminates :
    (∀ (st : Lsp.LState) (files0 : List Lsp.LFile),
      files0.Nodup → files0 ⊆ st.files →
      ∃ r, Lsp.expand st (st.files.length + 1) files0 = some r ∧ r.Nodup ∧
        (∀ x, x ∈ r ↔ Lsp.Reach st files0 x)) ∧
    (∀ (st : Lsp.LState) (files : List Lsp.LFile) (x : Lsp.LFile),
      x ∈ Lsp.onePass st files → x ∉ files) := by
  constructor
  · intro st files0 h1 h2
    exact Lsp.expand_reach st files0 (st.files.length + 1) files0 h1 h2
      (fun x hx => Lsp.Reach.base hx) (fun x hx => hx) (by omega)
  · intro st files x hx
    exact ((Lsp.onePass_mem st files x).mp hx).1

/-- Two files that load each other. -/
def fileA : Lsp.LFile := ⟨"/a.zeek", "@load b", "a"⟩

/-- Second file of the mutual-load scenario. -/
def fileB : Lsp.LFile := ⟨"/b.zeek", "@load a", "b"⟩

/-- State with two mutually loading files. -/
def mutualSt : Lsp.LState where
  files := [fileA, fileB]
  parse := fun f =>
    if f = fileA then some ⟨["b"]⟩ else if f = fileB then some ⟨["a"]⟩ else none
  module := fun f =>
    if f = fileA then some ⟨none, [], ["b"]⟩
    else if f = fileB then some ⟨none, [], ["a"]⟩ else none

/-- Witness for C2: the mutual-load cycle terminates with sufficient fuel
and concretely computes the closure of both files. -/
theorem c2_load_closure_terminates_witness :
    (∃ r, Lsp.expand mutualSt (mutualSt.files.length + 1) [fileA] = some r ∧ r.Nodup ∧
      (∀ x, x ∈ r ↔ Lsp.Reach mutualSt [fileA] x)) ∧
    Lsp.expand mutualSt 3 [fileA] = some [fileA, fileB] :=
  ⟨c2_load_closure_terminates.1 mutualSt [fileA] (by decide) (by decide), by decide⟩

/-! ### Claim C3: inner scopes win over outer scopes -/

/-- The comparison is irreflexive. -/
theorem ltChars_irrefl : ∀ l, ltChars l l = false
  | [] => rfl
  | c :: cs => by
    simp only [ltChars]
    rw [if_pos (by simp)]
    exact ltChars_irrefl cs

/-- The comparison is transitive. -/
theorem ltChars_trans : ∀ a b c, ltChars a b = true → ltChars b c = true →
    ltChars a c = true
  | [], [], _, h1, _ => by simp [ltChars] at h1
  | [], _ :: _, [], _, h2 => by simp [ltChars] at h2
  | [], _ :: _, _ :: _, _, _ => rfl
  | _ :: _, [], _, h1, _ => by simp [ltChars] at h1
  | _ :: _, _ :: _, [], _, h2 => by simp [ltChars] at h2
  | x :: xs, y :: ys, z :: zs, h1, h2 => by
    simp only [ltChars] at h1 h2 ⊢
    by_cases hxy : x = y
    · subst hxy
      rw [if_pos (by simp)] at h1
      by_cases hxz : x = z
      · subst hxz
        rw [if_pos (by simp)] at h2 ⊢
        exact ltChars_trans xs ys zs h1 h2
      · rw [if_neg (by simp [hxz])] at h2 ⊢
        exact h2
    · rw [if_neg (by simp [hxy])] at h1
      by_cases hyz : y = z
      · subst hyz
        rw [if_neg (by simp [hxy])]
        exact h1
      · rw [if_neg (by simp [hyz])] at h2
        simp only [decide_eq_true_eq] at h1 h2
        by_cases hxz : x = z
        · subst hxz
          omega
        · rw [if_neg (by simp [hxz])]
          simp only [decide_eq_true_eq]
          omega

/-- The comparison is total up to equality. -/
theorem ltChars_trichotomy : ∀ a b, a = b ∨ ltChars a b = true ∨ ltChars b a = true
  | [], [] => .inl rfl
  | [], _ :: _ => .inr (.inl rfl)
  | _ :: _, [] => .inr (.inr rfl)
  | x :: xs, y :: ys => by
    by_cases hxy : x = y
    · subst hxy
      rcases ltChars_trichotomy xs ys with h | h | h
      · exact .inl (by rw [h])
      · exact .inr (.inl (by simp only [ltChars]; rw [if_pos (by simp)]; exact h))
      · exact .inr (.inr (by simp only [ltChars]; rw [if_pos (by simp)]; exact h))
    · rcases Nat.lt_trichotomy x.toNat y.toNat with h | h | h
      · exact .inr (.inl (by simp only [ltChars]; rw [if_neg (by simp [hxy])]; simp [h]))
      · exact absurd (Char.ext (UInt32.ext h)) hxy
      · exact .inr (.inr (by
          simp only [ltChars]
          rw [if_neg (by simp [Ne.symm hxy])]
          simp [h]))

/-- String-level irreflexivity. -/
theorem ltStr_irrefl (a : String) : ltStr a a = false := ltChars_irrefl a.data

/-- String-level transitivity. -/
theorem ltStr_trans {a b c : String} (h1 : ltStr a b = true) (h2 : ltStr b c = true) :
    ltStr a c = true := ltChars_trans _ _ _ h1 h2

/-- Strictly smaller strings are different. -/
theorem ltStr_ne {a b : String} (h : ltStr a b = true) : a ≠ b := by
  intro e
  subst e
  rw [ltStr_irrefl] at h
  exact Bool.false_ne_true h

/-- Totality of the string comparison. -/
theorem ltStr_total {a b : String} (hne : a ≠ b) (hlt : ltStr a b = false) :
    ltStr b a = true := by
  rcases ltChars_trichotomy a.data b.data with h | h | h
  · exact absurd (by cases a; cases b; exact congrArg String.mk h) hne
  · rw [ltStr] at hlt
    rw [hlt] at h
    exact absurd h (by simp)
  · exact h

/-- Strict ordering of declarations by fully qualified id; the invariant
of the ordered-set model. -/
def DeclLt (a b : Decl) : Prop := ltStr a.fqid b.fqid = true

/-- Elements of an insertion come from the set or are the new element. -/
theorem mem_btreeInsert {y d : Decl} :
    ∀ {items : List Decl}, y ∈ btreeInsert d items → y ∈ items ∨ y = d := by
  intro items
  induction items with
  | nil =>
    intro h
    simp only [btreeInsert] at h
    exact .inr (List.mem_singleton.mp h)
  | cons x xs ih =>
    intro h
    simp only [btreeInsert] at h
    by_cases h1 : (d.fqid == x.fqid) = true
    · rw [if_pos h1] at h
      exact .inl h
    · rw [if_neg h1] at h
      by_cases h2 : ltStr d.fqid x.fqid = true
      · rw [if_pos h2] at h
        rcases List.mem_cons.mp h with rfl | h'
        · exact .inr rfl
        · exact .inl h'
      · rw [if_neg h2] at h
        rcases List.mem_cons.mp h with rfl | h'
        · exact .inl (List.mem_cons_self _ _)
        · rcases ih h' with h'' | h''
          · exact .inl (List.mem_cons_of_mem _ h'')
          · exact .inr h''

/-- Insertion preserves strict sortedness by fully qualified id. -/
theorem btreeInsert_pairwise {d : Decl} :
    ∀ {items : List Decl}, items.Pairwise DeclLt → (btreeInsert d items).Pairwise DeclLt := by
  intro items
  induction items with
  | nil =>
    intro _
    simp [btreeInsert]
  | cons x xs ih =>
    intro hp
    rcases List.pairwise_cons.mp hp with ⟨hx, hxs⟩
    simp only [btreeInsert]
    by_cases h1 : (d.fqid == x.fqid) = true
    · rw [if_pos h1]
      exact hp
    · rw [if_neg h1]
      by_cases h2 : ltStr d.fqid x.fqid = true
      · rw [if_pos h2]
        refine List.pairwise_cons.mpr ⟨?_, hp⟩
        intro y hy
        rcases List.mem_cons.mp hy with rfl | hy'
        · exact h2
        · exact ltStr_trans h2 (hx y hy')
      · rw [if_neg h2]
        refine List.pairwise_cons.mpr ⟨?_, ih hxs⟩
        intro y hy
        rcases mem_btreeInsert hy with hy' | heq
        · exact hx y hy'
        · rw [heq]
          have hne : d.fqid ≠ x.fqid := fun e => h1 (by simp [e])
          exact ltStr_total hne
            (by rcases h : ltStr d.fqid x.fqid with _ | _
                · rfl
                · exact absurd h h2)

/-- Lookup at a cons cell as a conditional. -/
theorem find?_cons_eq {α : Type} (p : α → Bool) (a : α) (l : List α) :
    (a :: l).find? p = (if p a = true then some a else l.find? p) := by
  by_cases h : p a = true
  · rw [if_pos h]
    exact List.find?_cons_of_pos l h
  · rw [if_neg h]
    exact List.find?_cons_of_neg l (by simpa using h)

/-- Lookup by key after an insertion: an existing element with the key
wins, otherwise the inserted element answers when its key matches. -/
theorem btreeInsert_find (d : Decl) (k : String) :
    ∀ (items : List Decl), items.Pairwise DeclLt →
      (btreeInsert d items).find? (fun e => e.fqid == k) =
        (items.find? (fun e => e.fqid == k)).or
          (if d.fqid == k then some d else none) := by
  intro items
  induction items with
  | nil =>
    intro _
    simp [btreeInsert, find?_cons_eq]
  | cons x xs ih =>
    intro hp
    rcases List.pairwise_cons.mp hp with ⟨hx, hxs⟩
    simp only [btreeInsert]
    by_cases h1 : (d.fqid == x.fqid) = true
    · rw [if_pos h1]
      by_cases hk : (x.fqid == k) = true
      · simp [find?_cons_eq, hk]
      · have hdk : (d.fqid == k) = false := by
          have e1 : d.fqid = x.fqid := beq_iff_eq.mp h1
          rw [e1]
          rcases h : x.fqid == k with _ | _
          · rfl
          · exact absurd h hk
        simp [find?_cons_eq, hk, hdk]
    · rw [if_neg h1]
      by_cases h2 : ltStr d.fqid x.fqid = true
      · rw [if_pos h2]
        by_cases hdk : (d.fqid == k) = true
        · have hnone : (x :: xs).find? (fun e => e.fqid == k) = none := by
            rw [List.find?_eq_none]
            intro a ha
            have hda : ltStr d.fqid a.fqid = true := by
              rcases List.mem_cons.mp ha with rfl | ha'
              · exact h2
              · exact ltStr_trans h2 (hx a ha')
            have hne : d.fqid ≠ a.fqid := ltStr_ne hda
            have hk' : d.fqid = k := beq_iff_eq.mp hdk
            rw [← hk']
            simp only [beq_iff_eq]
            intro e
            exact hne e.symm
          rw [hnone]
          simp [find?_cons_eq, hdk]
        · simp [find?_cons_eq, hdk]
      · rw [if_neg h2]
        by_cases hk : (x.fqid == k) = true
        · simp [find?_cons_eq, hk]
        · simp only [find?_cons_eq, hk, if_false, if_neg hk]
          exact ih hxs

/-- Lookup by key after folding a list of insertions into a sorted set:
the set answers first, then the first list element with the key. -/
theorem scopeFold_find (k : String) :
    ∀ (ds : List Decl) (items : List Decl), items.Pairwise DeclLt →
      ((ds.foldl (fun acc d => btreeInsert d acc) items).find? (fun e => e.fqid == k)) =
        ((items.find? (fun e => e.fqid == k)).or (ds.find? (fun e => e.fqid == k))) := by
  intro ds
  induction ds with
  | nil =>
    intro items _
    simp
  | cons d ds ih =>
    intro items hp
    simp only [List.foldl_cons]
    rw [ih _ (btreeInsert_pairwise hp), btreeInsert_find d k items hp]
    cases hfind : items.find? (fun e => e.fqid == k) with
    | some e => simp [hfind]
    | none =>
      simp only [hfind, Option.none_or]
      by_cases hdk : (d.fqid == k) = true
      · simp [find?_cons_eq, hdk]
      · simp [find?_cons_eq, hdk]

/-- Declarations the scope walk visits, in visiting order: the direct
declarations of the cursor node, then of each ancestor up to the root. -/
def walkList (t : Tree) : Nat → Nat → List Decl
  | 0, _ => []
  | fuel + 1, n =>
    t.declsOf n ++ (match t.parent n with
      | some p => walkList t fuel p
      | none => [])

/-- The scope walk is the fold of the rewritten visited declarations into
the ordered set. -/
theorem scopeWalk_eq_fold (t : Tree) (strip : Decl → Decl) :
    ∀ (fuel n : Nat) (items : List Decl),
      scopeWalk t strip fuel n items =
        (walkList t fuel n).foldl (fun acc d => btreeInsert (strip d) acc) items := by
  intro fuel
  induction fuel with
  | zero => intro n items; rfl
  | succ fuel ih =>
    intro n items
    simp only [scopeWalk, walkList]
    cases t.parent n with
    | some p =>
      rw [List.foldl_append]
      exact ih p _
    | none => simp

/-- Zero range used by the concrete scenarios. -/
def r0 : Range := ⟨⟨0, 0⟩, ⟨0, 0⟩⟩

/-- Inner declaration of the shadowing scenario. -/
def innerFoo : Decl := .mk "foo" "foo" .var "inner" "/m.zeek" r0

/-- Module-level declaration of the shadowing scenario, qualified with the
module name. -/
def outerFoo : Decl := .mk "foo" "M::foo" .global "outer" "/m.zeek" r0

/-- Tree of the shadowing scenario: the cursor node (2) sits in a block
(1) declaring the inner foo; the root (0) declares the outer foo and has
a module declaration (3) with name node (4). -/
def c3Tree : Tree where
  nodeData := fun i =>
    if i == 2 then ⟨"nm", some "foo", ⟨⟨2, 0⟩, ⟨2, 3⟩⟩⟩
    else if i == 1 then ⟨"block", some "block", ⟨⟨1, 0⟩, ⟨3, 1⟩⟩⟩
    else if i == 4 then ⟨"id", some "M", ⟨⟨0, 7⟩, ⟨0, 8⟩⟩⟩
    else ⟨"source_file", some "module M;", ⟨⟨0, 0⟩, ⟨4, 0⟩⟩⟩
  parent := fun i => if i == 2 then some 1 else if i == 1 then some 0 else none
  namedChild := fun i kind =>
    if i == 0 && kind == "module_decl" then some 3
    else if i == 3 && kind == "id" then some 4 else none
  descendantForPosition := fun _ => some 2
  namedDescendantForPointRange := fun _ => none
  declsOf := fun i => if i == 1 then [innerFoo] else if i == 0 then [outerFoo] else []
  root := 0

/-- Database of the shadowing scenario. -/
def c3db : DB where
  source := fun _ => "module M;\nfoo\n"
  parse := fun uri => if uri == "/m.zeek" then some c3Tree else none
  resolve := fun _ _ => none
  typ := fun _ => none
  possible_loads := fun _ => []
  decls := fun _ => []
  implicit_decls := []
  explicit_decls_recursive := fun _ => []

/-- C3: in the scope walk, for every key the declaration stored in the
result set is the first declaration with that rewritten fully qualified
id in visiting order — inner scopes are visited before outer ones, so the
earlier (inner) insertion wins and later (outer) duplicates are
suppressed; consequently, in the concrete shadowing scenario completion
inside the inner block yields the inner declaration and not the
module-level one. -/
theorem c3_scope_precedence :
    (∀ (t : Tree) (strip : Decl → Decl) (fuel n : Nat) (k : String),
      (scopeWalk t strip fuel n []).find? (fun e => e.fqid == k) =
        ((walkList t fuel n).map strip).find? (fun e => e.fqid == k)) ∧
    (resultContains (complete c3db "/m.zeek" ⟨2, 1⟩ none 10)
        ⟨"foo", some .variableItem, some "inner"⟩ = true ∧
     resultContains (complete c3db "/m.zeek" ⟨2, 1⟩ none 10)
        ⟨"foo", some .variableItem, some "outer"⟩ = false ∧
     resultContains (complete c3db "/m.zeek" ⟨2, 1⟩ none 10)
        ⟨"M::foo", some .variableItem, some "outer"⟩ = false) := by
  refine ⟨?_, by decide, by decide, by decide⟩
  intro t strip fuel n k
  have h1 := scopeWalk_eq_fold t strip fuel n []
  have h2 := scopeFold_find k ((walkList t fuel n).map strip) [] List.Pairwise.nil
  rw [List.foldl_map] at h2
  rw [h1, h2]
  simp

/-! ### Claims C1 and C10: member-access completion -/

/-- Shared pipeline lemma: under the member-access trigger, with the stem
resolving to a declaration whose type resolves to a type declaration, the
dispatch returns exactly the filtered and relabelled fields. -/
theorem complete_member_eq
    (db : DB) (uri : String) (pos : Position) (trigger : Option String) (fuel : Nat)
    (tree : Tree) (n0 node : Nat) (ntext : String) (r tdecl : Decl) (fields : List Decl)
    (hparse : db.parse uri = some tree)
    (hdesc : tree.descendantForPosition pos = some n0)
    (hfind : findTextNode tree pos fuel n0 = node)
    (hutf8 : (tree.nodeData node).utf8 = some ntext)
    (hcond : memberCond tree node trigger = true)
    (hres : db.resolve uri ((stemOf tree node).getD node) = some r)
    (htyp : db.typ r = some tdecl)
    (hkind : tdecl.kind = .type fields) :
    complete db uri pos trigger fuel =
      .ok (some (fieldItems fields (preselectionOf tree node))) := by
  have hmem : memberAccess db uri tree node trigger =
      some (fieldItems fields (preselectionOf tree node)) := by
    unfold memberAccess
    rw [if_pos hcond]
    simp only [hres, htyp, hkind]
  unfold complete
  simp only [hparse, hdesc, hfind, hutf8, hmem]

/-- C1: in a member-access context where the stem resolves to a
declaration whose nominal type resolves to a type declaration, the
candidate set is exactly the fields of that type, each kept only when it
passes the partial-text pre-filter, and every label is the bare field
name with the qualification cut at the last double colon. -/
theorem c1_member_access_fields :
    ∀ (db : DB) (uri : String) (pos : Position) (trigger : Option String) (fuel : Nat)
      (tree : Tree) (n0 node : Nat) (ntext : String) (r tdecl : Decl) (fields : List Decl),
      db.parse uri = some tree →
      tree.descendantForPosition pos = some n0 →
      findTextNode tree pos fuel n0 = node →
      (tree.nodeData node).utf8 = some ntext →
      memberCond tree node trigger = true →
      db.resolve uri ((stemOf tree node).getD node) = some r →
      db.typ r = some tdecl →
      tdecl.kind = .type fields →
      complete db uri pos trigger fuel =
        .ok (some (fieldItems fields (preselectionOf tree node))) ∧
      (∀ item, item ∈ fieldItems fields (preselectionOf tree node) ↔
        ∃ f, f ∈ fields ∧ keepField (preselectionOf tree node) f = true ∧
          item = { to_completion_item f with
                    label := lastSegment (to_completion_item f).label }) := by
  intro db uri pos trigger fuel tree n0 node ntext r tdecl fields
  intro hparse hdesc hfind hutf8 hcond hres htyp hkind
  refine ⟨complete_member_eq db uri pos trigger fuel tree n0 node ntext r tdecl fields
      hparse hdesc hfind hutf8 hcond hres htyp hkind, ?_⟩
  intro item
  constructor
  · intro h
    rcases List.mem_map.mp h with ⟨f, hf, hitem⟩
    rcases List.mem_filter.mp hf with ⟨hmem2, hkeep⟩
    exact ⟨f, hmem2, hkeep, hitem.symm⟩
  · rintro ⟨f, hmem2, hkeep, hitem⟩
    exact List.mem_map.mpr ⟨f, List.mem_filter.mpr ⟨hmem2, hkeep⟩, hitem.symm⟩

/-- Field of the record type in the member-access scenario. -/
def abcField : Decl := .mk "abc" "X::abc" .field "abc field" "/x.zeek" r0

/-- The receiver declaration of the member-access scenario. -/
def fooDecl : Decl := .mk "foo" "foo" .global "foo doc" "/x.zeek" r0

/-- The record type declaration of the member-access scenario. -/
def xTypeDecl : Decl := .mk "X" "X" (.type [abcField]) "record X" "/x.zeek" r0

/-- Tree for the cursor right after the dollar of foo: the node found at
the cursor is the field-access node rendering foo followed by a
dollar. -/
def c1Tree : Tree where
  nodeData := fun i =>
    if i == 2 then ⟨"field_access", some "foo$", ⟨⟨2, 0⟩, ⟨2, 4⟩⟩⟩
    else ⟨"source_file", some "type X: ...", ⟨⟨0, 0⟩, ⟨3, 0⟩⟩⟩
  parent := fun i => if i == 2 then some 0 else none
  namedChild := fun _ _ => none
  descendantForPosition := fun _ => some 2
  namedDescendantForPointRange := fun _ => none
  declsOf := fun _ => []
  root := 0

/-- Database of the member-access scenario. -/
def c1db : DB where
  source := fun _ => "type X: record ...;\nglobal foo: X;\nfoo$\n"
  parse := fun uri => if uri == "/x.zeek" then some c1Tree else none
  resolve := fun uri n => if uri == "/x.zeek" && n == 2 then some fooDecl else none
  typ := fun d => if d == fooDecl then some xTypeDecl else none
  possible_loads := fun _ => []
  decls := fun _ => []
  implicit_decls := []
  explicit_decls_recursive := fun _ => []

/-- Witness for C1: with the cursor right after the dollar the result
contains the candidate labelled abc and excludes foo. -/
theorem c1_member_access_fields_witness :
    complete c1db "/x.zeek" ⟨2, 4⟩ none 10 =
      .ok (some [⟨"abc", some .fieldItem, some "abc field"⟩]) ∧
    resultContains (complete c1db "/x.zeek" ⟨2, 4⟩ none 10)
      ⟨"abc", some .fieldItem, some "abc field"⟩ = true ∧
    resultContains (complete c1db "/x.zeek" ⟨2, 4⟩ none 10)
      ⟨"foo", some .variableItem, some "foo doc"⟩ = false := by
  have h := (c1_member_access_fields c1db "/x.zeek" ⟨2, 4⟩ none 10 c1Tree 2 2 "foo$"
      fooDecl xTypeDecl [abcField] rfl rfl rfl rfl rfl rfl rfl rfl).1
  refine ⟨h.trans (by decide), ?_, ?_⟩
  · rw [h]; decide
  · rw [h]; decide

/-- C10: when partial field text follows the dollar, the pre-filter of the
member-access branch is the exact case-sensitive character-prefix test on
the local field id — a field is kept if and only if its id starts with
the typed text. -/
theorem c10_preselection_exact :
    ∀ (db : DB) (uri : String) (pos : Position) (trigger : Option String) (fuel : Nat)
      (tree : Tree) (n0 node : Nat) (ntext : String) (r tdecl : Decl) (fields : List Decl)
      (pre : String),
      db.parse uri = some tree →
      tree.descendantForPosition pos = some n0 →
      findTextNode tree pos fuel n0 = node →
      (tree.nodeData node).utf8 = some ntext →
      memberCond tree node trigger = true →
      db.resolve uri ((stemOf tree node).getD node) = some r →
      db.typ r = some tdecl →
      tdecl.kind = .type fields →
      preselectionOf tree node = some pre →
      complete db uri pos trigger fuel =
        .ok (some ((fields.filter (fun d => List.isPrefixOf pre.data d.id.data)).map
          (fun d => { to_completion_item d with
                      label := lastSegment (to_completion_item d).label }))) ∧
      (∀ f, f ∈ fields.filter (keepField (some pre)) ↔
        f ∈ fields ∧ List.isPrefixOf pre.data f.id.data = true) := by
  intro db uri pos trigger fuel tree n0 node ntext r tdecl fields pre
  intro hparse hdesc hfind hutf8 hcond hres htyp hkind hpre
  have h := complete_member_eq db uri pos trigger fuel tree n0 node ntext r tdecl fields
    hparse hdesc hfind hutf8 hcond hres htyp hkind
  constructor
  · rw [h, hpre]
    unfold fieldItems
    have hk : keepField (some pre) = fun d => List.isPrefixOf pre.data d.id.data := by
      funext d
      rfl
    rw [hk]
  · intro f
    constructor
    · intro hf
      rcases List.mem_filter.mp hf with ⟨h1, h2⟩
      exact ⟨h1, h2⟩
    · rintro ⟨h1, h2⟩
      exact List.mem_filter.mpr ⟨h1, h2⟩

/-- Second, fuzzily similar but non-prefix field of the partial-text
scenario. -/
def bcaField : Decl := .mk "bca" "X::bca" .field "bca field" "/x.zeek" r0

/-- The record type declaration with two fields for the partial-text
scenario. -/
def xTypeDecl10 : Decl := .mk "X" "X" (.type [abcField, bcaField]) "record X" "/x.zeek" r0

/-- Tree for the cursor after the partial text a in foo followed by a
dollar and an a: the cursor node (3) is the partial id, its parent (2) is
the field access whose expr child is the stem (1). -/
def c10Tree : Tree where
  nodeData := fun i =>
    if i == 3 then ⟨"id", some "a", ⟨⟨2, 4⟩, ⟨2, 5⟩⟩⟩
    else if i == 2 then ⟨"field_access", some "foo$a", ⟨⟨2, 0⟩, ⟨2, 5⟩⟩⟩
    else if i == 1 then ⟨"expr", some "foo", ⟨⟨2, 0⟩, ⟨2, 3⟩⟩⟩
    else ⟨"source_file", some "type X: ...", ⟨⟨0, 0⟩, ⟨3, 0⟩⟩⟩
  parent := fun i => if i == 3 then some 2 else if i == 2 then some 0
    else if i == 1 then some 2 else none
  namedChild := fun i kind => if i == 2 && kind == "expr" then some 1 else none
  descendantForPosition := fun _ => some 3
  namedDescendantForPointRange := fun _ => none
  declsOf := fun _ => []
  root := 0

/-- Database of the partial-text member-access scenario. -/
def c10db : DB where
  source := fun _ => "type X: record ...;\nglobal foo: X;\nfoo$a\n"
  parse := fun uri => if uri == "/x.zeek" then some c10Tree else none
  resolve := fun uri n => if uri == "/x.zeek" && n == 1 then some fooDecl else none
  typ := fun d => if d == fooDecl then some xTypeDecl10 else none
  possible_loads := fun _ => []
  decls := fun _ => []
  implicit_decls := []
  explicit_decls_recursive := fun _ => []

/-- Witness for C10: with partial text a only the field abc survives; the
field bca shares a character with the text (positive fuzzy score) yet is
excluded because the test is a prefix test. -/
theorem c10_preselection_exact_witness :
    complete c10db "/x.zeek" ⟨2, 5⟩ none 10 =
      .ok (some [⟨"abc", some .fieldItem, some "abc field"⟩]) ∧
    resultContains (complete c10db "/x.zeek" ⟨2, 5⟩ none 10)
      ⟨"bca", some .fieldItem, some "bca field"⟩ = false ∧
    0 < fuzzy_compare "a" "bca" := by
  have h := (c10_preselection_exact c10db "/x.zeek" ⟨2, 5⟩ none 10 c10Tree 3 3 "a"
      fooDecl xTypeDecl10 [abcField, bcaField] "a" rfl rfl rfl rfl rfl rfl rfl rfl rfl).1
  refine ⟨h.trans (by decide), ?_, by decide⟩
  rw [h]; decide

/-! ### Claim C4: the fuzzy filter of general identifier completion -/

/-- Equality of declarations forces equal fully qualified ids. -/
theorem Decl.beq_fqid {a b : Decl} (h : Decl.beq a b = true) : a.fqid = b.fqid := by
  cases a with | mk i f k doc u r =>
  cases b with | mk i' f' k' doc' u' r' =>
  simp only [Decl.beq, Bool.and_eq_true] at h
  exact beq_iff_eq.mp h.1.1.1.1.2

/-- Declarations with different fully qualified ids are unequal. -/
theorem Decl.beq_false_of_fqid_ne {a b : Decl} (h : a.fqid ≠ b.fqid) :
    Decl.beq a b = false := by
  rcases he : Decl.beq a b with _ | _
  · rfl
  · exact absurd (Decl.beq_fqid he) h

/-- Element search through a list as an existence statement, without any
lawfulness assumption on the equality test. -/
theorem elem_eq_exists {α : Type} [BEq α] :
    ∀ (l : List α) (a : α), l.elem a = true ↔ ∃ b ∈ l, (a == b) = true := by
  intro l a
  induction l with
  | nil => simp [List.elem]
  | cons x xs ih =>
    rcases h : a == x with _ | _
    · simp only [List.elem, h]
      rw [ih]
      constructor
      · rintro ⟨b, hb, hab⟩
        exact ⟨b, List.mem_cons_of_mem x hb, hab⟩
      · rintro ⟨b, hb, hab⟩
        rcases List.mem_cons.mp hb with rfl | hb'
        · rw [h] at hab
          exact absurd hab (by simp)
        · exact ⟨b, hb', hab⟩
    · simp only [List.elem, h]
      constructor
      · intro _
        exact ⟨x, List.mem_cons_self x xs, h⟩
      · intro _
        trivial

/-- The result set of the scope walk is strictly sorted by fully
qualified id. -/
theorem scopeWalk_pairwise (t : Tree) (strip : Decl → Decl) (fuel n : Nat) :
    (scopeWalk t strip fuel n []).Pairwise DeclLt := by
  rw [scopeWalk_eq_fold]
  exact foldl_invariant _ (fun acc d ha => btreeInsert_pairwise ha) _ [] List.Pairwise.nil

/-- A member of a strictly sorted block at the front of the
deduplication input survives deduplication. -/
theorem mem_uniqueAux_append {other : List Decl} {d : Decl} :
    ∀ (l : List Decl) (seen : List Decl), d ∈ l → l.Pairwise DeclLt →
      (∀ s ∈ seen, (d == s) = false) → d ∈ uniqueAux seen (l ++ other) := by
  intro l
  induction l with
  | nil =>
    intro seen h
    exact absurd h (List.not_mem_nil d)
  | cons x xs ih =>
    intro seen hd hp hseen
    rcases List.pairwise_cons.mp hp with ⟨hx, hxs⟩
    rcases List.mem_cons.mp hd with heq | hd'
    · subst heq
      simp only [List.cons_append, uniqueAux]
      have hc : seen.contains d = false := by
        rcases h : List.elem d seen with _ | _
        · exact h
        · rcases (elem_eq_exists seen d).mp h with ⟨s, hs, hds⟩
          rw [hseen s hs] at hds
          exact absurd hds (by simp)
      rw [if_neg (by rw [List.contains] at hc; simp [hc])]
      exact List.mem_cons_self _ _
    · simp only [List.cons_append, uniqueAux]
      by_cases hc : seen.contains x = true
      · rw [if_pos hc]
        exact ih seen hd' hxs hseen
      · rw [if_neg hc]
        refine List.mem_cons_of_mem x (ih (x :: seen) hd' hxs ?_)
        intro s hs
        rcases List.mem_cons.mp hs with heq | hs'
        · subst heq
          have hlt : DeclLt s d := hx d hd'
          exact Decl.beq_false_of_fqid_ne (Ne.symm (ltStr_ne hlt))
        · exact hseen s hs'

/-- C4 (amended): under the general-identifier fallback the dispatch
returns the general completion; external declarations are kept exactly
when they are no redefinition and pass the fuzzy test against the
completion text (everything passes without text); a keyword candidate
appears exactly when the keyword passes its fuzzy test (which also
admits empty text); and every declaration of the local scope-walk set is
always a candidate, with no fuzzy filtering. -/
theorem c4_general_fuzzy_filter :
    ∀ (db : DB) (uri : String) (pos : Position) (trigger : Option String) (fuel : Nat)
      (tree : Tree) (n0 node : Nat) (ntext : String),
      db.parse uri = some tree →
      tree.descendantForPosition pos = some n0 →
      findTextNode tree pos fuel n0 = node →
      (tree.nodeData node).utf8 = some ntext →
      memberAccess db uri tree node trigger = none →
      ((tree.nodeData node).kind == "file") = false →
      callableBranch db uri (db.source uri) tree node = none →
      (complete db uri pos trigger fuel =
        .ok (some (generalCompletion db uri tree node
          (((rustLines ntext).head?).map strTrim) fuel))) ∧
      (∀ (txt : Option String) (d : Decl),
        d ∈ otherDecls db uri txt ↔
          d ∈ db.explicit_decls_recursive uri ++ db.implicit_decls ∧
          is_redef d = false ∧ fuzzyPass txt d.fqid = true) ∧
      (∀ (txt : Option String) (kw : String),
        (⟨kw, some .keywordItem, none⟩ : CompletionItem) ∈
            generalCompletion db uri tree node txt fuel ↔
          kw ∈ KEYWORDS ∧ keywordPass txt kw = true) ∧
      (∀ (txt : Option String) (d : Decl),
        d ∈ scopeWalk tree (stripDecl (currentModuleOf tree)) fuel node [] →
        to_completion_item d ∈ generalCompletion db uri tree node txt fuel) := by
  intro db uri pos trigger fuel tree n0 node ntext
  intro hparse hdesc hfind hutf8 hmem hkf hcall
  refine ⟨?_, ?_, ?_, ?_⟩
  · unfold complete
    simp only [hparse, hdesc, hfind, hutf8, hmem, hkf, hcall, Bool.false_eq_true,
      if_false]
  · intro txt d
    unfold otherDecls
    constructor
    · intro h
      rcases List.mem_filter.mp h with ⟨h1, h2⟩
      rw [Bool.and_eq_true] at h2
      rcases h2 with ⟨h2a, h2b⟩
      refine ⟨h1, ?_, h2b⟩
      rcases h3 : is_redef d with _ | _
      · rfl
      · rw [h3] at h2a
        exact absurd h2a (by simp)
    · rintro ⟨h1, h2, h3⟩
      refine List.mem_filter.mpr ⟨h1, ?_⟩
      rw [Bool.and_eq_true]
      exact ⟨by simp [h2], h3⟩
  · intro txt kw
    constructor
    · intro h
      rcases List.mem_append.mp h with h | h
      · rcases List.mem_map.mp h with ⟨d, _, hd⟩
        exact absurd (congrArg CompletionItem.documentation hd) (by simp [to_completion_item])
      · rcases List.mem_filterMap.mp h with ⟨kw', hkw', heq⟩
        by_cases hpass : keywordPass txt kw' = true
        · rw [if_pos hpass] at heq
          have hlab : kw' = kw := congrArg CompletionItem.label (Option.some.inj heq)
          subst hlab
          exact ⟨hkw', hpass⟩
        · rw [if_neg hpass] at heq
          exact absurd heq (by simp)
    · rintro ⟨h1, h2⟩
      refine List.mem_append.mpr (.inr (List.mem_filterMap.mpr ⟨kw, h1, ?_⟩))
      rw [if_pos h2]
  · intro txt d hd
    refine List.mem_append.mpr (.inl (List.mem_map.mpr ⟨d, ?_, rfl⟩))
    exact mem_uniqueAux_append _ [] hd (scopeWalk_pairwise tree _ fuel node)
      (fun s hs => absurd hs (List.not_mem_nil s))

/-- Local declaration of the fuzzy-filter counterexample. -/
def fooLocal : Decl := .mk "foo" "foo" .global "foo doc" "/z.zeek" r0

/-- Tree of the fuzzy-filter counterexample: the cursor node (1) renders
the typed prefix z; the root declares foo. -/
def c4Tree : Tree where
  nodeData := fun i =>
    if i == 1 then ⟨"nm", some "z", ⟨⟨0, 0⟩, ⟨0, 1⟩⟩⟩
    else ⟨"source_file", some "z", ⟨⟨0, 0⟩, ⟨1, 0⟩⟩⟩
  parent := fun i => if i == 1 then some 0 else none
  namedChild := fun _ _ => none
  descendantForPosition := fun _ => some 1
  namedDescendantForPointRange := fun _ => none
  declsOf := fun i => if i == 0 then [fooLocal] else []
  root := 0

/-- Database of the fuzzy-filter counterexample. -/
def c4db : DB where
  source := fun _ => "z"
  parse := fun uri => if uri == "/z.zeek" then some c4Tree else none
  resolve := fun _ _ => none
  typ := fun _ => none
  possible_loads := fun _ => []
  decls := fun _ => []
  implicit_decls := []
  explicit_decls_recursive := fun _ => []

/-- Counterexample for C4 as stated: with the typed prefix z the locally
visible declaration foo is returned as a candidate although the fuzzy
score of z against foo is exactly zero, so not every candidate of the
union is subject to the fuzzy filter. -/
theorem c4_counterexample :
    complete c4db "/z.zeek" ⟨0, 0⟩ none 10 =
      .ok (some [⟨"foo", some .variableItem, some "foo doc"⟩]) ∧
    fuzzy_compare (toLowerStr "z") (toLowerStr "foo") = 0 := by
  exact ⟨by decide, by decide⟩

/-- Witness for C4 (amended): the counterexample instance satisfies the
fallback hypotheses; additionally no keyword survives the prefix z (they
all share no character with it), the local foo always survives, and
without completion text every keyword is kept. -/
theorem c4_general_fuzzy_filter_witness :
    (complete c4db "/z.zeek" ⟨0, 0⟩ none 10 =
      .ok (some (generalCompletion c4db "/z.zeek" c4Tree 1
        (((rustLines "z").head?).map strTrim) 10))) ∧
    ¬ ((⟨"for", some .keywordItem, none⟩ : CompletionItem) ∈
        generalCompletion c4db "/z.zeek" c4Tree 1 (some "z") 10) ∧
    to_completion_item fooLocal ∈ generalCompletion c4db "/z.zeek" c4Tree 1 (some "z") 10 ∧
    (keywordItems none).length = KEYWORDS.length := by
  have h := c4_general_fuzzy_filter c4db "/z.zeek" ⟨0, 0⟩ none 10 c4Tree 1 1 "z"
    rfl rfl rfl rfl rfl rfl rfl
  refine ⟨h.1, ?_, ?_, by decide⟩
  · intro hmem
    have := (h.2.2.1 (some "z") "for").mp hmem
    exact absurd this.2 (by decide)
  · exact h.2.2.2 (some "z") fooLocal (List.mem_singleton.mpr rfl)

/-! ### Claim C5: callable-signature completion dispatch -/

/-- C5 (amended): the callable branch is taken when and only when the
cursor node kind is id and its line starts with any word followed by
whitespace — not only the keywords event, function and hook; the
candidates are drawn from the filter of local, implicit and loaded
declarations by kind matching the leading word; and when the leading word
is none of event, function or hook the branch returns the empty candidate
list instead of falling through to general completion. -/
theorem c5_callable_dispatch :
    ∀ (db : DB) (uri : String) (pos : Position) (trigger : Option String) (fuel : Nat)
      (tree : Tree) (n0 node : Nat) (ntext line kw : String),
      db.parse uri = some tree →
      tree.descendantForPosition pos = some n0 →
      findTextNode tree pos fuel n0 = node →
      (tree.nodeData node).utf8 = some ntext →
      memberAccess db uri tree node trigger = none →
      (tree.nodeData node).kind = "id" →
      (rustLines (db.source uri)).get? (tree.nodeData node).range.start.line = some line →
      leadingKeyword line = some kw →
      (complete db uri pos trigger fuel = .ok (some (callableItemsFor db uri kw))) ∧
      (∀ d, d ∈ (db.decls uri ++ db.implicit_decls ++
          db.explicit_decls_recursive uri).filter (matchesCallableKind kw) ↔
        (d ∈ db.decls uri ++ db.implicit_decls ++ db.explicit_decls_recursive uri ∧
          matchesCallableKind kw d = true)) ∧
      (kw ≠ "event" → kw ≠ "function" → kw ≠ "hook" →
        callableItemsFor db uri kw = []) := by
  intro db uri pos trigger fuel tree n0 node ntext line kw
  intro hparse hdesc hfind hutf8 hmem hkind hline hkw
  refine ⟨?_, ?_, ?_⟩
  · have hbind : ((rustLines (db.source uri)).get?
        (tree.nodeData node).range.start.line).bind leadingKeyword = some kw := by
      rw [hline]
      exact hkw
    have hcall : callableBranch db uri (db.source uri) tree node =
        some (callableItemsFor db uri kw) := by
      unfold callableBranch
      rw [if_pos (by rw [hkind]; rfl)]
      simp only [hbind]
    have hkf : ((tree.nodeData node).kind == "file") = false := by
      rw [hkind]
      rfl
    unfold complete
    simp only [hparse, hdesc, hfind, hutf8, hmem, hkf, Bool.false_eq_true, if_false,
      hcall]
  · intro d
    constructor
    · intro h
      exact List.mem_filter.mp h
    · intro h
      exact List.mem_filter.mpr h
  · intro h1 h2 h3
    have hfilter : (db.decls uri ++ db.implicit_decls ++
        db.explicit_decls_recursive uri).filter (matchesCallableKind kw) = [] := by
      rw [List.filter_eq_nil_iff]
      intro d _
      unfold matchesCallableKind
      cases hk : d.kind <;> simp [hk, h1, h2, h3]
    unfold callableItemsFor
    rw [hfilter]
    rfl

/-- Tree of the callable-dispatch counterexample: the cursor node is an
id on the line "global x". -/
def c5Tree : Tree where
  nodeData := fun i =>
    if i == 1 then ⟨"id", some "x", ⟨⟨0, 7⟩, ⟨0, 8⟩⟩⟩
    else ⟨"source_file", some "global x", ⟨⟨0, 0⟩, ⟨1, 0⟩⟩⟩
  parent := fun i => if i == 1 then some 0 else none
  namedChild := fun _ _ => none
  descendantForPosition := fun _ => some 1
  namedDescendantForPointRange := fun _ => none
  declsOf := fun _ => []
  root := 0

/-- Database of the callable-dispatch counterexample. -/
def c5db : DB where
  source := fun _ => "global x"
  parse := fun uri => if uri == "/g.zeek" then some c5Tree else none
  resolve := fun _ _ => none
  typ := fun _ => none
  possible_loads := fun _ => []
  decls := fun _ => []
  implicit_decls := []
  explicit_decls_recursive := fun _ => []

/-- Counterexample for C5 as stated: on the line "global x" — whose
leading word is none of event, function or hook — the branch is still
taken and returns an empty candidate list, while the general fallback at
the same node would have produced candidates; so the branch is not taken
only under the three keywords, and dispatch does not fall through. -/
theorem c5_counterexample :
    complete c5db "/g.zeek" ⟨0, 7⟩ none 10 = .ok (some []) ∧
    leadingKeyword "global x" = some "global" ∧
    ¬ ("global" ∈ (["event", "function", "hook"] : List String)) ∧
    generalCompletion c5db "/g.zeek" c5Tree 1 (some "x") 10 ≠ [] := by
  exact ⟨by decide, by decide, by decide, by decide⟩

/-- Span of the parameter of the event scenario. -/
def argRange : Range := ⟨⟨0, 18⟩, ⟨0, 26⟩⟩

/-- Parameter declaration of the event scenario. -/
def cArg : Decl := .mk "c" "c" .var "" "/e.zeek" argRange

/-- Event declaration of the scenario. -/
def evtDecl : Decl := .mk "evt" "evt" (.eventDecl (.mk [cArg])) "evt doc" "/e.zeek" r0

/-- Tree of the event-completion scenario: cursor id node (1) on the line
"event e"; node 7 is the rendering of the parameter span. -/
def c5wTree : Tree where
  nodeData := fun i =>
    if i == 1 then ⟨"id", some "e", ⟨⟨1, 6⟩, ⟨1, 7⟩⟩⟩
    else if i == 7 then ⟨"formal_args", some "c: count", ⟨⟨0, 18⟩, ⟨0, 26⟩⟩⟩
    else ⟨"source_file", some "global evt: event(c: count);", ⟨⟨0, 0⟩, ⟨2, 0⟩⟩⟩
  parent := fun i => if i == 1 then some 0 else none
  namedChild := fun _ _ => none
  descendantForPosition := fun _ => some 1
  namedDescendantForPointRange := fun r => if r = argRange then some 7 else none
  declsOf := fun _ => []
  root := 0

/-- Database of the event-completion scenario. -/
def c5wdb : DB where
  source := fun _ => "global evt: event(c: count);\nevent e"
  parse := fun uri => if uri == "/e.zeek" then some c5wTree else none
  resolve := fun _ _ => none
  typ := fun _ => none
  possible_loads := fun _ => []
  decls := fun uri => if uri == "/e.zeek" then [evtDecl] else []
  implicit_decls := []
  explicit_decls_recursive := fun _ => []

/-- Witness for C5 (amended): after the keyword event the known event
declaration is rendered with its recovered parameter list and a body
stub. -/
theorem c5_callable_dispatch_witness :
    complete c5wdb "/e.zeek" ⟨1, 7⟩ none 10 =
      .ok (some [⟨"evt(c: count) \x7b\x7d", some .eventItem, some "evt doc"⟩]) := by
  have h := (c5_callable_dispatch c5wdb "/e.zeek" ⟨1, 7⟩ none 10 c5wTree 1 1 "e"
      "event e" "event" rfl rfl rfl rfl rfl rfl rfl rfl).1
  exact h.trans (by decide)

/-! ### Claim C6: module qualification of external declarations -/

/-- C6 (amended): the declarations returned by external declaration
resolution are exactly the declarations of the modules of the closure,
each qualified with the declared module name or, when the module declares
no name, with the filename-derived default of the REQUESTING file (the
query argument), not of the loaded file. -/
theorem c6_qualification :
    ∀ (st : Lsp.LState) (file : Lsp.LFile) (tree : Lsp.LTree) (closure : List Lsp.LFile),
      st.parse file = some tree →
      Lsp.expand st (st.files.length + 1) (Lsp.initialFiles st tree) = some closure →
      Lsp.external_decls st file = .ok (Lsp.qualifyModules st file closure) ∧
      (∀ d', d' ∈ Lsp.qualifyModules st file closure ↔
        ∃ f ∈ closure, ∃ m, st.module f = some m ∧
          ∃ mid, (match m.id with
                  | some i => some i
                  | none => Lsp.default_module_name file.id) = some mid ∧
            ∃ d ∈ m.decls, d' = { d with id := mid ++ "::" ++ d.id }) := by
  intro st file tree closure hparse hexp
  constructor
  · unfold Lsp.external_decls
    simp only [hparse, hexp]
  · intro d'
    unfold Lsp.qualifyModules
    constructor
    · intro h
      rcases List.mem_flatten.mp h with ⟨ds, hds, hd'⟩
      rcases List.mem_filterMap.mp hds with ⟨m, hm, hmm⟩
      rcases List.mem_filterMap.mp hm with ⟨f, hf, hmf⟩
      rcases hmid : (match m.id with
          | some i => some i
          | none => Lsp.default_module_name file.id) with _ | mid
      · rw [hmid] at hmm
        exact absurd hmm (by simp)
      · rw [hmid] at hmm
        have hds' : m.decls.map (fun (d : Lsp.LDecl) =>
            { d with id := mid ++ "::" ++ d.id }) = ds := by
          simpa using hmm
        rw [← hds'] at hd'
        rcases List.mem_map.mp hd' with ⟨d, hdm, hdd⟩
        exact ⟨f, hf, m, hmf, mid, hmid, d, hdm, hdd.symm⟩
    · rintro ⟨f, hf, m, hmf, mid, hmid, d, hdm, hdd⟩
      refine List.mem_flatten.mpr ⟨m.decls.map (fun (d : Lsp.LDecl) =>
          { d with id := mid ++ "::" ++ d.id }), ?_, ?_⟩
      · refine List.mem_filterMap.mpr ⟨m, List.mem_filterMap.mpr ⟨f, hf, hmf⟩, ?_⟩
        rw [hmid]
        rfl
      · rw [hdd]
        exact List.mem_map.mpr ⟨d, hdm, rfl⟩

/-- Loaded file of the qualification counterexample; its module declares
no name. -/
def loadedA : Lsp.LFile := ⟨"/a.zeek", "", "a"⟩

/-- Requesting file of the qualification counterexample. -/
def rootX : Lsp.LFile := ⟨"/x.zeek", "@load a", "x"⟩

/-- State of the qualification counterexample: the requesting file loads
the nameless module of the loaded file. -/
def c6St : Lsp.LState where
  files := [loadedA]
  parse := fun f =>
    if f = rootX then some ⟨["a"]⟩ else if f = loadedA then some ⟨[]⟩ else none
  module := fun f =>
    if f = loadedA then some ⟨none, [⟨"d", .global, "d doc"⟩], []⟩ else none

/-- Counterexample for C6 as stated: the loaded file is /a.zeek, whose
filename-derived default would be a, yet the declaration is qualified as
x::d — derived from the requesting file /x.zeek — because the binding
used for the default in lsp.rs lines 430 to 433 is the query argument. -/
theorem c6_counterexample :
    Lsp.external_decls c6St rootX = .ok [⟨"x::d", .global, "d doc"⟩] ∧
    Lsp.default_module_name loadedA.id = some "a" ∧
    ("x::d" : String) ≠ "a::d" := by
  exact ⟨by decide, by decide, by decide⟩

/-- Loaded file of the named-module scenario. -/
def loadedN : Lsp.LFile := ⟨"/n.zeek", "", "n"⟩

/-- Requesting file of the named-module scenario. -/
def rootY : Lsp.LFile := ⟨"/y.zeek", "@load n", "y"⟩

/-- State of the named-module scenario: the loaded module declares the
name N. -/
def c6wSt : Lsp.LState where
  files := [loadedN]
  parse := fun f =>
    if f = rootY then some ⟨["n"]⟩ else if f = loadedN then some ⟨[]⟩ else none
  module := fun f =>
    if f = loadedN then some ⟨some "N", [⟨"d", .global, "d doc"⟩], []⟩ else none

/-- Witness for C6 (amended): with a declared module name the
declarations are qualified with it. -/
theorem c6_qualification_witness :
    Lsp.external_decls c6wSt rootY = .ok (Lsp.qualifyModules c6wSt rootY [loadedN]) ∧
    Lsp.qualifyModules c6wSt rootY [loadedN] = [⟨"N::d", .global, "d doc"⟩] := by
  have h := (c6_qualification c6wSt rootY ⟨["n"]⟩ [loadedN] rfl (by decide)).1
  exact ⟨h, by decide⟩

end ZeekLsp
